import Mathlib

/-!
# Verification of the ruskcov breakpoint-placement pipeline

A shallow embedding, in Lean 4, of the parts of the `ruskcov` sources that
the specification's testable properties talk about:

* `src/inject/src/span.rs` — page-aligned `Span`s and their coalescing;
* `src/inject/src/lib.rs` — `set_breakpoints` (bulk patching) and the
  request/response service loop in `send_phdrs`;
* `src/ruskcov/src/main.rs` — the directory `Filter`, the debug-link
  resolution in `load_debug`, and the `(pid, path)` dedup in `try_main`;
* `src/ruskcov/src/symtab.rs` — the unit-range clamping in
  `Context::from_dwarf`;
* `src/ruskcov/src/process.rs` — `Process::exec`.

Machine integers (`usize`, `u64`, bytes) are modelled as `Nat`; the address
and length arithmetic involved never overflows and every subtraction in the
sources is guarded, so `Nat` arithmetic coincides with the Rust semantics.
Tracee memory is a total function `Nat → Nat` from address to byte.
-/

namespace Ruskcov

/-! ## Span model (`src/inject/src/span.rs`) -/

/-- Embeds `const PAGE_SIZE: usize = 4096;`. -/
def PAGE_SIZE : Nat := 4096

/-- Embeds `struct Span { start: usize, len: usize, addrs: Vec<usize> }`. -/
structure Span where
  start : Nat
  len : Nat
  addrs : List Nat
deriving DecidableEq, Repr

/-- Page-rounding `addr & !(PAGE_SIZE - 1)`: clearing the low 12 bits of a
machine word is truncating division by the page size. -/
def pageOf (addr : Nat) : Nat := addr / PAGE_SIZE * PAGE_SIZE

/-- Embeds `Span::new`: a one-page span holding a single address. -/
def Span.new (addr : Nat) : Span :=
  { start := pageOf addr, len := PAGE_SIZE, addrs := [addr] }

/-- Embeds `Span::extend`: merge `other` into `self` when `other.start` lies in
`self.start .. self.start + self.len + PAGE_SIZE`, else give both back. -/
def Span.extend (s other : Span) : Except (Span × Span) Span :=
  if s.start ≤ other.start ∧ other.start < s.start + s.len + PAGE_SIZE then
    Except.ok
      { start := s.start
        len := other.start + other.len - s.start
        addrs := s.addrs ++ other.addrs }
  else
    Except.error (s, other)

/-- Embeds `Itertools::coalesce` specialised to `Span::extend`, as used in
`set_breakpoints`: keep merging the running span with the next one; on a
merge failure emit the running span and continue from the next. -/
def coalesceSpans : Span → List Span → List Span
  | prev, [] => [prev]
  | prev, cur :: rest =>
    match Span.extend prev cur with
    | Except.ok merged => coalesceSpans merged rest
    | Except.error (p, c) => p :: coalesceSpans c rest

/-- Embeds `addrs.into_iter().map(Span::new).coalesce(|prev, cur| prev.extend(cur))`. -/
def buildSpans (addrs : List Nat) : List Span :=
  match addrs.map Span.new with
  | [] => []
  | s :: rest => coalesceSpans s rest

/-! ## Bulk patching (`set_breakpoints` in `src/inject/src/lib.rs`) -/

/-- The x86 int3 opcode `BREAKPOINT: BreakpointInst = BreakpointInst([0xcc])`
(`src/inject-types/src/lib.rs`); a `BreakpointInst` is one byte. -/
def BREAKPOINT : Nat := 0xcc

/-- Store one byte in the tracee memory model. -/
def writeByte (mem : Nat → Nat) (addr val : Nat) : Nat → Nat :=
  fun x => if x = addr then val else mem x

/-- One iteration of the inner patch loop:
`let old = mem::replace(inst, BREAKPOINT); res.push((addr, old));`. -/
def patchAddr (st : List (Nat × Nat) × (Nat → Nat)) (addr : Nat) :
    List (Nat × Nat) × (Nat → Nat) :=
  (st.1 ++ [(addr, st.2 addr)], writeByte st.2 addr BREAKPOINT)

/-- Embeds `set_breakpoints`: sort the request, group it into coalesced spans, and
swap the breakpoint byte into every requested address, collecting the
`(addr, old)` pairs in request order. Returns the response pairs and the
final memory. `Vec::sort` is a stable ascending sort; `insertionSort` by
`≤` produces the same (unique) sorted permutation. -/
def set_breakpoints (mem : Nat → Nat) (breakpoints : List Nat) :
    List (Nat × Nat) × (Nat → Nat) :=
  let sorted := List.insertionSort (· ≤ ·) breakpoints
  let spans := buildSpans sorted
  spans.foldl (fun st span => span.addrs.foldl patchAddr st) ([], mem)

/-! ### Patching with the memory-protection calls made explicit

`set_breakpoints` brackets each span's patch loop with two `libc::mprotect`
calls whose results it discards.  To reason about that error handling we
re-embed the same function with the protection state and the issued calls
kept explicit; an oracle `ok` decides whether a given `mprotect` invocation
succeeds. -/

def PROT_READ : Nat := 1
def PROT_WRITE : Nat := 2
def PROT_EXEC : Nat := 4

/-- Agent-side state during `set_breakpoints`: tracee memory, per-byte
protection, the response pairs accumulated so far, and the trace of
`mprotect(start, len, perm)` invocations issued so far. -/
structure PatchState where
  mem : Nat → Nat
  prot : Nat → Nat
  pairs : List (Nat × Nat)
  calls : List (Nat × Nat × Nat)

/-- Embeds `libc::mprotect(start, len, perm)`: record the call; when the oracle says
it succeeds, set the protection of every byte in `[start, start+len)`.
The caller in `set_breakpoints` discards the result either way. -/
def mprotectCall (ok : Nat → Nat → Nat → Bool) (st : PatchState)
    (start len perm : Nat) : PatchState :=
  { st with
    prot :=
      if ok start len perm then
        fun p => if start ≤ p ∧ p < start + len then perm else st.prot p
      else st.prot
    calls := st.calls ++ [(start, len, perm)] }

/-- The body of the `for addr in span.addrs` loop, acting on the protection-
aware state: `let old = mem::replace(inst, BREAKPOINT); res.push((addr, old))`. -/
def patchAddrProt (s : PatchState) (addr : Nat) : PatchState :=
  { s with
    pairs := s.pairs ++ [(addr, s.mem addr)]
    mem := writeByte s.mem addr BREAKPOINT }

/-- The body of the `for span in spans` loop of `set_breakpoints`:
`mprotect(.., PROT_WRITE)`, patch every address of the span,
`mprotect(.., PROT_READ | PROT_EXEC)`. -/
def patchSpan (ok : Nat → Nat → Nat → Bool) (st : PatchState) (span : Span) :
    PatchState :=
  mprotectCall ok
    (span.addrs.foldl patchAddrProt
      (mprotectCall ok st span.start span.len PROT_WRITE))
    span.start span.len (PROT_READ ||| PROT_EXEC)

/-- Embeds `set_breakpoints` with the protection state explicit. -/
def set_breakpoints_prot (ok : Nat → Nat → Nat → Bool)
    (mem prot : Nat → Nat) (breakpoints : List Nat) : PatchState :=
  let sorted := List.insertionSort (· ≤ ·) breakpoints
  let spans := buildSpans sorted
  spans.foldl (patchSpan ok)
    { mem := mem, prot := prot, pairs := [], calls := [] }

/-! ## The agent's service loop (`send_phdrs` in `src/inject/src/lib.rs`)

The loop reads `SetBreakpointsReq` messages; an empty request breaks out of
the loop, every other request is answered by one `SetBreakpointsResp`
carrying the pairs of `set_breakpoints`.  The incoming stream is modelled as
the list of decoded requests (each a list of addresses); the value is the
list of responses sent. -/

def send_phdrs_loop (mem : Nat → Nat) : List (List Nat) → List (List (Nat × Nat))
  | [] => []
  | req :: rest =>
    if req.isEmpty then []
    else
      let r := set_breakpoints mem req
      r.1 :: send_phdrs_loop r.2 rest

/-- Reference behaviour: answer every request of a stream, threading the
tracee memory through. -/
def respondAll (mem : Nat → Nat) : List (List Nat) → List (List (Nat × Nat))
  | [] => []
  | req :: rest =>
    let r := set_breakpoints mem req
    r.1 :: respondAll r.2 rest

/-! ## Directory filter (`Filter` and `get_breakpoints` in
`src/ruskcov/src/main.rs`)

A `RegexSet` enters the model only through its `is_match` method, so each
set is embedded as a boolean predicate on directory strings. -/

/-- Embeds `struct Filter { dir_include: RegexSet, dir_exclude: RegexSet }`. -/
structure Filter where
  dir_include : String → Bool
  dir_exclude : String → Bool

/-- The admission test from the `allowed_dirs` construction in
`get_breakpoints`:
`filter.dir_include.is_match(&strdir) || !filter.dir_exclude.is_match(&strdir)`. -/
def dirAllow (filter : Filter) (strdir : String) : Bool :=
  filter.dir_include strdir || !filter.dir_exclude strdir

/-- The directory-level filter table of `get_breakpoints`: each unit
directory string is paired with its admission verdict. The join of the
compilation directory with the directory string is abstracted as the
already-joined `strdir` input. -/
def allowedDirs (filter : Filter) (dirs : List String) : List (String × Bool) :=
  dirs.map (fun strdir => (strdir, dirAllow filter strdir))

/-! ## Debug-link resolution (`load_debug` in `src/ruskcov/src/main.rs`)

Paths are modelled as lists of components relative to the filesystem root
(the `Component::Prefix`/`Component::RootDir` filter in `load_debug` makes
the "object directory without its root" the same component list).  The
filesystem enters through oracles: `openF` is `File::open`, `mapF` is
`MappedSlice::new` (whose failure aborts `load_debug` with an error, the
`?` on line 206), `crcF` is `crc::crc32::checksum_ieee`, and `parseF` is
`object::File::parse` on the separate debug file. -/

/-- The candidate list built in `load_debug`:
`objdir.join(name)`, `objdir.join(".debug").join(name)`,
`Path::new("/usr/lib/debug").join(&relobjdir).join(name)`. -/
def debugPaths (objdir : List String) (name : String) : List (List String) :=
  [objdir ++ [name],
   objdir ++ [".debug", name],
   ["usr", "lib", "debug"] ++ objdir ++ [name]]

/-- The probe loop of `load_debug`: try `File::open` on each candidate in
order and keep the first success. -/
def firstOpen {φ : Type} (openF : List String → Option φ) :
    List (List String) → Option φ
  | [] => none
  | p :: ps =>
    match openF p with
    | some f => some f
    | none => firstOpen openF ps

/-- The debug-link arm of `load_debug` (taken when the primary object
declares a `gnu_debuglink (name, crc)`); returns the object whose sections
will be used, or an error when mapping the found file fails. -/
def load_debug {φ α β : Type} (openF : List String → Option φ)
    (mapF : φ → Option α) (crcF : α → Nat) (parseF : α → Option β)
    (objdir : List String) (name : String) (crc : Nat) (primary : β) :
    Except Unit β :=
  match firstOpen openF (debugPaths objdir name) with
  | none => Except.ok primary
  | some file =>
    match mapF file with
    | none => Except.error ()
    | some linkmap =>
      if crcF linkmap = crc then
        match parseF linkmap with
        | some linkobj => Except.ok linkobj
        | none => Except.ok primary
      else
        Except.ok primary

/-! ## Unit-range clamping (`Context::from_dwarf` in
`src/ruskcov/src/symtab.rs`)

`from_dwarf` collects `(gimli::Range, unit_id)` pairs, sorts them by
`range.begin`, and clamps overlapping beginnings forward so that the list
becomes disjoint.  `Range { begin, end }` is embedded as `URange` with
fields `rbegin`/`rend` (`end` is reserved in Lean). -/

structure URange where
  rbegin : Nat
  rend : Nat
deriving DecidableEq, Repr

/-- The `prev_end` loop of `from_dwarf`:
```text
if range.0.begin < prev_end { range.0.begin = prev_end; }
if range.0.end < prev_end { range.0.end = prev_end; } else { prev_end = range.0.end; }
``` -/
def clampRanges : Nat → List (URange × Nat) → List (URange × Nat)
  | _, [] => []
  | prevEnd, (r, u) :: rest =>
    if r.rend < prevEnd then
      ({ rbegin := if r.rbegin < prevEnd then prevEnd else r.rbegin
         rend := prevEnd }, u) :: clampRanges prevEnd rest
    else
      ({ rbegin := if r.rbegin < prevEnd then prevEnd else r.rbegin
         rend := r.rend }, u) :: clampRanges r.rend rest

/-- Embeds `unit_ranges.sort_by_key(|x| x.0.begin)` followed by the clamping pass,
starting from `prev_end = 0`. -/
def fromDwarfRanges (unit_ranges : List (URange × Nat)) : List (URange × Nat) :=
  clampRanges 0 (List.insertionSort (fun a b => a.1.rbegin ≤ b.1.rbegin) unit_ranges)

/-! ## Controller dedup (`try_main` in `src/ruskcov/src/main.rs`) -/

/-- Embeds `struct PHdr { vaddr: usize, memsize: usize }` (`src/inject-types`). -/
structure PHdr where
  vaddr : Nat
  memsize : Nat
deriving DecidableEq, Repr

/-- Embeds `struct ObjectInfo { pid, path, addr, phdrs }` (`src/inject-types`);
the path is its textual form. -/
structure ObjectInfo where
  pid : Nat
  path : String
  addr : Nat
  phdrs : List PHdr
deriving DecidableEq, Repr

/-- The dedup key `(obj.pid, obj.path.clone())` from `try_main`. -/
def objKey (obj : ObjectInfo) : Nat × String := (obj.pid, obj.path)

/-- The inner `for obj in &objinfo` loop of `try_main`: each object whose
key enters `objseen` for the first time triggers one `get_breakpoints`
invocation, recorded here by appending its key to the parse log. The
`HashSet` is modelled by a list queried only through membership. -/
def reportObjs (seen : List (Nat × String)) (parses : List (Nat × String)) :
    List ObjectInfo → List (Nat × String) × List (Nat × String)
  | [] => (seen, parses)
  | obj :: rest =>
    if objKey obj ∈ seen then reportObjs seen parses rest
    else reportObjs (objKey obj :: seen) (parses ++ [objKey obj]) rest

/-- The accept loop of `try_main`, one entry per connection's decoded
`Vec<ObjectInfo>`; `objseen` persists across connections. -/
def acceptLoop (seen : List (Nat × String)) (parses : List (Nat × String)) :
    List (List ObjectInfo) → List (Nat × String) × List (Nat × String)
  | [] => (seen, parses)
  | conn :: conns =>
    let r := reportObjs seen parses conn
    acceptLoop r.1 r.2 conns

/-! ## Process model (`src/ruskcov/src/process.rs`) -/

/-- Embeds `struct Location` from `src/ruskcov/src/main.rs`: breakpoint address,
interned `(dir, file)` source path, line, and the replaced byte. -/
structure Location where
  addr : Nat
  srcpath : String × String
  line : Nat
  replaced : Option Nat
deriving DecidableEq, Repr

/-- Embeds `enum ProcessState { New, Running, Stopped, Exiting }`. -/
inductive ProcessState where
  | New
  | Running
  | Stopped
  | Exiting
deriving DecidableEq, Repr

/-- Insertion into a `BTreeMap<u64, u64>` modelled as an assoc list sorted
by key, replacing the value on a key collision. The `Segment` payload is
its single `len` field. -/
def btreeInsert : List (Nat × Nat) → Nat → Nat → List (Nat × Nat)
  | [], key, val => [(key, val)]
  | (k, v) :: rest, key, val =>
    if key < k then (key, val) :: (k, v) :: rest
    else if key = k then (key, val) :: rest
    else (k, v) :: btreeInsert rest key val

/-- Embeds `iter.collect::<BTreeMap<_, _>>()`: fold the entries into the map. -/
def btreeFromList (l : List (Nat × Nat)) : List (Nat × Nat) :=
  l.foldl (fun m kv => btreeInsert m kv.1 kv.2) []

/-- Embeds `struct AddressSpace` with `breakpoints: HashMap<u64, Location>` and `segments: BTreeMap<u64, Segment>`.
The breakpoint map is an assoc list (queried only through membership). -/
structure AddressSpace where
  breakpoints : List (Nat × Location)
  segments : List (Nat × Nat)
deriving DecidableEq, Repr

/-- Embeds `struct Process { pid: Pid, state: ProcessState, addrspace: Arc<AddressSpace> }`. -/
structure Process where
  pid : Nat
  state : ProcessState
  addrspace : AddressSpace
deriving DecidableEq, Repr

/-- Embeds `Process::exec`: build a fresh `AddressSpace` with empty breakpoints and
the given segments, and replace the old one. -/
def Process.exec (p : Process) (segments : List (Nat × Nat)) : Process :=
  { p with
    addrspace :=
      { breakpoints := []
        segments := btreeFromList segments } }

/-! ## Verification-side predicates -/

/-- The spec's span invariant: page-aligned start, positive page-multiple
length, and every carried address inside `[start, start + len)`. -/
def GoodSpan (s : Span) : Prop :=
  s.start % PAGE_SIZE = 0 ∧ 0 < s.len ∧ s.len % PAGE_SIZE = 0 ∧
    ∀ a ∈ s.addrs, s.start ≤ a ∧ a < s.start + s.len

/-- Invariant of the running span during coalescing: `m` is the largest
address absorbed so far, and the span ends exactly one page past `m`'s
page. -/
def SpanInv (s : Span) (m : Nat) : Prop :=
  s.start % PAGE_SIZE = 0 ∧
  (∀ a ∈ s.addrs, s.start ≤ a ∧ a < s.start + s.len) ∧
  s.start ≤ pageOf m ∧
  s.start + s.len = pageOf m + PAGE_SIZE

/-! # Theorems -/

/-! ## Page arithmetic -/

theorem pageOf_le (a : Nat) : pageOf a ≤ a := by
  unfold pageOf PAGE_SIZE; omega

theorem lt_pageOf_add (a : Nat) : a < pageOf a + PAGE_SIZE := by
  unfold pageOf PAGE_SIZE; omega

theorem pageOf_mono {a b : Nat} (h : a ≤ b) : pageOf a ≤ pageOf b := by
  unfold pageOf PAGE_SIZE at *; omega

theorem pageOf_mod (a : Nat) : pageOf a % PAGE_SIZE = 0 := by
  unfold pageOf PAGE_SIZE; omega

theorem goodSpan_of_inv {s : Span} {m : Nat} (h : SpanInv s m) : GoodSpan s := by
  obtain ⟨h1, h2, h3, h4⟩ := h
  have hm := pageOf_mod m
  refine ⟨h1, ?_, ?_, h2⟩ <;> (unfold PAGE_SIZE at *; omega)

theorem spanInv_new (a : Nat) : SpanInv (Span.new a) a := by
  refine ⟨pageOf_mod a, ?_, le_refl _, rfl⟩
  intro x hx
  simp only [Span.new, List.mem_singleton] at hx
  rw [hx]
  exact ⟨pageOf_le a, lt_pageOf_add a⟩

/-! ## The coalescing loop -/

theorem coalesceSpans_spec :
    ∀ (rest : List Nat) (prev : Span) (m : Nat),
      SpanInv prev m → List.Chain (fun x y => x ≤ y) m rest →
      coalesceSpans prev (rest.map Span.new) ≠ [] ∧
      (∀ s, (coalesceSpans prev (rest.map Span.new)).head? = some s →
        s.start = prev.start) ∧
      ((coalesceSpans prev (rest.map Span.new)).map Span.addrs).flatten =
        prev.addrs ++ rest ∧
      (∀ s ∈ coalesceSpans prev (rest.map Span.new), GoodSpan s) ∧
      List.Chain' (fun s t => s.start + s.len ≤ t.start)
        (coalesceSpans prev (rest.map Span.new)) := by
  intro rest
  induction rest with
  | nil =>
    intro prev m hinv _
    refine ⟨by simp [coalesceSpans], ?_, by simp [coalesceSpans], ?_, by simp [coalesceSpans]⟩
    · intro s hs
      simp [coalesceSpans] at hs
      rw [← hs]
    · intro s hs
      simp [coalesceSpans] at hs
      subst hs
      exact goodSpan_of_inv hinv
  | cons a rest ih =>
    intro prev m hinv hchain
    rw [List.chain_cons] at hchain
    obtain ⟨hma, hchain2⟩ := hchain
    obtain ⟨hstart, haddr, hle, hlen⟩ := hinv
    have hPa : prev.start ≤ pageOf a := le_trans hle (pageOf_mono hma)
    have hmono : pageOf m ≤ pageOf a := pageOf_mono hma
    by_cases hcond : pageOf a < prev.start + prev.len + PAGE_SIZE
    · -- `Span::extend` succeeds: keep coalescing with the merged span.
      have hext : Span.extend prev (Span.new a) =
          Except.ok
            { start := prev.start
              len := pageOf a + PAGE_SIZE - prev.start
              addrs := prev.addrs ++ [a] } := by
        simp [Span.extend, Span.new, hPa, hcond]
      have hinv2 : SpanInv
          { start := prev.start
            len := pageOf a + PAGE_SIZE - prev.start
            addrs := prev.addrs ++ [a] } a := by
        refine ⟨hstart, ?_, hPa, by simp; omega⟩
        intro x hx
        simp at hx
        rcases hx with hx | hx
        · have := haddr x hx
          simp
          omega
        · subst hx
          have h1 := pageOf_le x
          have h2 := lt_pageOf_add x
          simp
          omega
      have hres := ih _ a hinv2 hchain2
      obtain ⟨hne, hhead, hjoin, hgood, hchn⟩ := hres
      have heq : coalesceSpans prev ((a :: rest).map Span.new) =
          coalesceSpans
            { start := prev.start
              len := pageOf a + PAGE_SIZE - prev.start
              addrs := prev.addrs ++ [a] } (rest.map Span.new) := by
        simp only [List.map_cons, coalesceSpans, hext]
      rw [heq]
      refine ⟨hne, ?_, ?_, hgood, hchn⟩
      · intro s hs
        exact hhead s hs
      · rw [hjoin]
        simp
    · -- `Span::extend` fails: emit `prev` and restart from `Span.new a`.
      have hext : Span.extend prev (Span.new a) = Except.error (prev, Span.new a) := by
        simp [Span.extend, Span.new, hcond]
      have hres := ih (Span.new a) a (spanInv_new a) hchain2
      obtain ⟨hne, hhead, hjoin, hgood, hchn⟩ := hres
      have heq : coalesceSpans prev ((a :: rest).map Span.new) =
          prev :: coalesceSpans (Span.new a) (rest.map Span.new) := by
        simp only [List.map_cons, coalesceSpans, hext]
      rw [heq]
      refine ⟨by simp, ?_, ?_, ?_, ?_⟩
      · intro s hs
        simp at hs
        rw [← hs]
      · simp only [List.map_cons, List.flatten_cons]
        rw [hjoin]
        simp [Span.new]
      · intro s hs
        rcases List.mem_cons.mp hs with hs | hs
        · subst hs
          exact goodSpan_of_inv ⟨hstart, haddr, hle, hlen⟩
        · exact hgood s hs
      · rw [List.chain'_cons']
        refine ⟨?_, hchn⟩
        intro y hy
        have hy2 := hhead y hy
        have : (Span.new a).start = pageOf a := rfl
        rw [this] at hy2
        unfold PAGE_SIZE at hcond
        omega

/-- In a chain of interval-like elements (`lo x ≤ hi x` pointwise) linked by
`hi s ≤ lo t`, the head is related to every later element. -/
theorem chainRelAll {α : Type} (lo hi : α → Nat) :
    ∀ (l : List α) (x : α), (∀ y ∈ l, lo y ≤ hi y) →
      List.Chain (fun s t => hi s ≤ lo t) x l → ∀ y ∈ l, hi x ≤ lo y := by
  intro l
  induction l with
  | nil =>
    intro x _ _ y hy
    cases hy
  | cons z l ih =>
    intro x hwf hch y hy
    rw [List.chain_cons] at hch
    obtain ⟨hxz, hch2⟩ := hch
    rcases List.mem_cons.mp hy with hy | hy
    · rw [hy]; exact hxz
    · have hz := hwf z (List.mem_cons_self z l)
      have hzy := ih z (fun w hw => hwf w (List.mem_cons_of_mem _ hw)) hch2 y hy
      omega

/-- A consecutive-elements chain over interval-like elements is in fact
pairwise. -/
theorem chain'_pairwise_bounds {α : Type} (lo hi : α → Nat) :
    ∀ l : List α, (∀ x ∈ l, lo x ≤ hi x) →
      List.Chain' (fun s t => hi s ≤ lo t) l →
      List.Pairwise (fun s t => hi s ≤ lo t) l := by
  intro l
  induction l with
  | nil =>
    intro _ _
    exact List.Pairwise.nil
  | cons x l ih =>
    intro hwf hch
    refine List.Pairwise.cons ?_ (ih (fun w hw => hwf w (List.mem_cons_of_mem _ hw)) hch.tail)
    exact chainRelAll lo hi l x (fun w hw => hwf w (List.mem_cons_of_mem _ hw)) hch

/-- With pairwise-disjoint spans each of whose addresses lies inside it, an
address occurring in the flattened address lists occurs in exactly one
span. -/
theorem countP_addrs_one :
    ∀ (spans : List Span) (a : Nat),
      (∀ s ∈ spans, ∀ x ∈ s.addrs, s.start ≤ x ∧ x < s.start + s.len) →
      List.Pairwise (fun s t => s.start + s.len ≤ t.start) spans →
      a ∈ (spans.map Span.addrs).flatten →
      spans.countP (fun s => decide (a ∈ s.addrs)) = 1 := by
  intro spans
  induction spans with
  | nil =>
    intro a _ _ hmem
    simp at hmem
  | cons s spans ih =>
    intro a hgood hpair hmem
    rw [List.pairwise_cons] at hpair
    obtain ⟨hrel, hpair2⟩ := hpair
    by_cases hin : a ∈ s.addrs
    · rw [List.countP_cons]
      have hz : spans.countP (fun t => decide (a ∈ t.addrs)) = 0 := by
        rw [List.countP_eq_zero]
        intro t ht hc
        have hat : a ∈ t.addrs := by simpa using hc
        have h1 := hgood s (List.mem_cons_self s spans) a hin
        have h2 := hgood t (List.mem_cons_of_mem _ ht) a hat
        have h3 := hrel t ht
        omega
      simp [hz, hin]
    · rw [List.countP_cons]
      have hmem2 : a ∈ (spans.map Span.addrs).flatten := by
        simp only [List.map_cons, List.flatten_cons, List.mem_append] at hmem
        rcases hmem with hmem | hmem
        · exact absurd hmem hin
        · exact hmem
      have hrec := ih a (fun t ht => hgood t (List.mem_cons_of_mem _ ht)) hpair2 hmem2
      simp [hrec, hin]

/-- Everything `buildSpans` guarantees on an ascending address list. -/
theorem buildSpans_spec (l : List Nat)
    (hs : List.Sorted (fun x y => x ≤ y) l) :
    ((buildSpans l).map Span.addrs).flatten = l ∧
    (∀ s ∈ buildSpans l, GoodSpan s) ∧
    List.Pairwise (fun s t => s.start + s.len ≤ t.start) (buildSpans l) ∧
    List.Pairwise (fun s t => s.start < t.start) (buildSpans l) ∧
    (∀ a ∈ l, (buildSpans l).countP (fun s => decide (a ∈ s.addrs)) = 1) ∧
    List.Chain' (fun s t => s.start + s.len ≤ t.start) (buildSpans l) := by
  cases l with
  | nil =>
    simp [buildSpans]
  | cons a rest =>
    have hchain : List.Chain (fun x y => x ≤ y) a rest :=
      List.chain'_iff_pairwise.mpr hs
    have heq : buildSpans (a :: rest) = coalesceSpans (Span.new a) (rest.map Span.new) := by
      simp [buildSpans]
    obtain ⟨hne, hhead, hflat, hgood, hchn⟩ :=
      coalesceSpans_spec rest (Span.new a) a (spanInv_new a) hchain
    rw [heq]
    have hflat2 : ((coalesceSpans (Span.new a) (rest.map Span.new)).map Span.addrs).flatten
        = a :: rest := by
      rw [hflat]
      simp [Span.new]
    have hgood2 : ∀ s ∈ coalesceSpans (Span.new a) (rest.map Span.new),
        ∀ x ∈ s.addrs, s.start ≤ x ∧ x < s.start + s.len :=
      fun s hs' => (hgood s hs').2.2.2
    have hpair := chain'_pairwise_bounds (fun s : Span => s.start)
      (fun s : Span => s.start + s.len) _ (fun x _ => Nat.le_add_right _ _) hchn
    refine ⟨hflat2, hgood, hpair, ?_, ?_, hchn⟩
    · refine List.Pairwise.imp_of_mem ?_ hpair
      intro s t hsm _ hr
      have hr2 : s.start + s.len ≤ t.start := hr
      have hlen := (hgood s hsm).2.1
      omega
    · intro x hx
      apply countP_addrs_one _ _ hgood2 hpair
      rw [hflat2]
      exact hx

/-- C1: over an ascending-sorted address list, the span construction of
`set_breakpoints` (mapping `Span::new` and coalescing with `Span::extend`)
preserves the address list exactly, places each address in exactly one
span and inside that span's `[start, start+len)`, produces pairwise
non-overlapping spans strictly sorted by `start`, and keeps every span
page-aligned with positive page-multiple length. -/
theorem span_coalescing_invariants (l : List Nat)
    (hsorted : List.Sorted (fun x y => x ≤ y) l) :
    ((buildSpans l).map Span.addrs).flatten = l ∧
    (∀ a ∈ l, (buildSpans l).countP (fun s => decide (a ∈ s.addrs)) = 1) ∧
    (∀ s ∈ buildSpans l, ∀ a ∈ s.addrs, s.start ≤ a ∧ a < s.start + s.len) ∧
    List.Pairwise (fun s t => s.start + s.len ≤ t.start) (buildSpans l) ∧
    List.Pairwise (fun s t => s.start < t.start) (buildSpans l) ∧
    (∀ s ∈ buildSpans l, s.start % PAGE_SIZE = 0 ∧ 0 < s.len ∧ s.len % PAGE_SIZE = 0) := by
  obtain ⟨h1, h2, h3, h4, h5, _⟩ := buildSpans_spec l hsorted
  exact ⟨h1, h5, fun s hs => (h2 s hs).2.2.2, h3, h4,
    fun s hs => ⟨(h2 s hs).1, (h2 s hs).2.1, (h2 s hs).2.2.1⟩⟩

/-- Witness for C1 at the spec's Span-basic scenario `[100, 200, 300]`. -/
theorem span_coalescing_invariants_witness :
    List.Sorted (fun x y => x ≤ y) [100, 200, 300] ∧
    (((buildSpans [100, 200, 300]).map Span.addrs).flatten = [100, 200, 300] ∧
     (∀ a ∈ [100, 200, 300],
        (buildSpans [100, 200, 300]).countP (fun s => decide (a ∈ s.addrs)) = 1) ∧
     (∀ s ∈ buildSpans [100, 200, 300], ∀ a ∈ s.addrs,
        s.start ≤ a ∧ a < s.start + s.len) ∧
     List.Pairwise (fun s t => s.start + s.len ≤ t.start) (buildSpans [100, 200, 300]) ∧
     List.Pairwise (fun s t => s.start < t.start) (buildSpans [100, 200, 300]) ∧
     (∀ s ∈ buildSpans [100, 200, 300],
        s.start % PAGE_SIZE = 0 ∧ 0 < s.len ∧ s.len % PAGE_SIZE = 0)) :=
  ⟨by decide, span_coalescing_invariants [100, 200, 300] (by decide)⟩

/-! ## The patch loop of `set_breakpoints` -/

/-- Folding the patch step span-by-span is folding it over the flattened
address lists. -/
theorem foldl_spans_flatten (spans : List Span) :
    ∀ st : List (Nat × Nat) × (Nat → Nat),
      spans.foldl (fun st span => span.addrs.foldl patchAddr st) st =
        ((spans.map Span.addrs).flatten).foldl patchAddr st := by
  induction spans with
  | nil => intro st; rfl
  | cons s spans ih =>
    intro st
    rw [List.foldl_cons, List.map_cons, List.flatten_cons, List.foldl_append]
    exact ih _

/-- Running the patch step over a duplicate-free address list records the
pre-patch byte of every address, in order, and overwrites exactly those
addresses with the breakpoint byte. -/
theorem patchRun (l : List Nat) :
    ∀ (acc : List (Nat × Nat)) (mem : Nat → Nat), l.Nodup →
      l.foldl patchAddr (acc, mem) =
        (acc ++ l.map (fun a => (a, mem a)),
         fun x => if x ∈ l then BREAKPOINT else mem x) := by
  induction l with
  | nil =>
    intro acc mem _
    have hfn : (fun x => if x ∈ ([] : List Nat) then BREAKPOINT else mem x) = mem := by
      funext x
      simp
    rw [List.foldl_nil, List.map_nil, List.append_nil, hfn]
  | cons a l ih =>
    intro acc mem hnd
    rw [List.nodup_cons] at hnd
    obtain ⟨hna, hnd2⟩ := hnd
    rw [List.foldl_cons]
    have hstep : patchAddr (acc, mem) a =
        (acc ++ [(a, mem a)], writeByte mem a BREAKPOINT) := rfl
    rw [hstep, ih _ _ hnd2]
    congr 1
    · rw [List.append_assoc]
      congr 1
      have hmap : l.map (fun b => (b, writeByte mem a BREAKPOINT b)) =
          l.map (fun b => (b, mem b)) := by
        apply List.map_congr_left
        intro b hb
        have hba : b ≠ a := fun h => hna (h ▸ hb)
        simp [writeByte, hba]
      rw [hmap]
      simp
    · funext x
      by_cases hx : x = a
      · subst hx
        simp [writeByte, hna]
      · by_cases hxl : x ∈ l <;> simp [writeByte, hx, hxl]

/-- The first components of the recorded pairs are exactly the processed
addresses, in order (no distinctness needed). -/
theorem patchRun_fst (l : List Nat) :
    ∀ (acc : List (Nat × Nat)) (mem : Nat → Nat),
      (l.foldl patchAddr (acc, mem)).1.map Prod.fst = acc.map Prod.fst ++ l := by
  induction l with
  | nil => intro acc mem; simp
  | cons a l ih =>
    intro acc mem
    rw [List.foldl_cons]
    have hstep : patchAddr (acc, mem) a =
        (acc ++ [(a, mem a)], writeByte mem a BREAKPOINT) := rfl
    rw [hstep, ih]
    simp

/-- Running `set_breakpoints` on an already strictly-sorted request patches the
listed addresses and returns their previous bytes in request order. -/
theorem set_breakpoints_sorted (mem : Nat → Nat) (l : List Nat)
    (hsorted : List.Sorted (fun x y : Nat => x < y) l) :
    set_breakpoints mem l =
      (l.map (fun a => (a, mem a)), fun x => if x ∈ l then BREAKPOINT else mem x) := by
  have hle : List.Sorted (fun x y : Nat => x ≤ y) l :=
    hsorted.imp (fun h => Nat.le_of_lt h)
  have hnd : l.Nodup := hsorted.imp (fun h => Nat.ne_of_lt h)
  unfold set_breakpoints
  rw [List.Sorted.insertionSort_eq hle]
  rw [foldl_spans_flatten, (buildSpans_spec l hle).1, patchRun l [] mem hnd]
  simp

/-- Write a list of `(addr, byte)` pairs back into memory, last write
winning — the restore pass of the patch round-trip. -/
theorem restoreRun (l : List Nat) :
    ∀ (cur orig : Nat → Nat), (∀ x, x ∉ l → cur x = orig x) →
      (l.map (fun a => (a, orig a))).foldl (fun m p => writeByte m p.1 p.2) cur = orig := by
  induction l with
  | nil =>
    intro cur orig h
    funext x
    simpa using h x (by simp)
  | cons a l ih =>
    intro cur orig h
    rw [List.map_cons, List.foldl_cons]
    apply ih
    intro x hx
    by_cases hxa : x = a
    · subst hxa
      simp [writeByte]
    · have : x ∉ a :: l := by simp [hx, hxa]
      simp only [writeByte]
      rw [if_neg hxa]
      exact h x this

/-- C2: on an ascending list of distinct addresses, `set_breakpoints`
writes `0xCC` at exactly the listed addresses (all other bytes unchanged),
returns one `(address, previous byte)` pair per input address in input
order, and writing the returned bytes back restores memory byte-for-byte. -/
theorem patch_round_trip (mem : Nat → Nat) (l : List Nat)
    (hsorted : List.Sorted (fun x y : Nat => x < y) l) :
    (set_breakpoints mem l).1 = l.map (fun a => (a, mem a)) ∧
    (set_breakpoints mem l).2 = (fun x => if x ∈ l then BREAKPOINT else mem x) ∧
    (set_breakpoints mem l).1.foldl (fun m p => writeByte m p.1 p.2)
      (set_breakpoints mem l).2 = mem := by
  have h := set_breakpoints_sorted mem l hsorted
  refine ⟨by rw [h], by rw [h], ?_⟩
  rw [h]
  apply restoreRun
  intro x hx
  simp [hx]

/-- Witness for C2 at `l = [100, 200, 300]` over the all-zero memory. -/
theorem patch_round_trip_witness :
    List.Sorted (fun x y : Nat => x < y) [100, 200, 300] ∧
    ((set_breakpoints (fun _ => 0) [100, 200, 300]).1 =
        [100, 200, 300].map (fun a => (a, (fun _ : Nat => (0 : Nat)) a)) ∧
     (set_breakpoints (fun _ => 0) [100, 200, 300]).2 =
        (fun x => if x ∈ [100, 200, 300] then BREAKPOINT else 0) ∧
     (set_breakpoints (fun _ => 0) [100, 200, 300]).1.foldl
        (fun m p => writeByte m p.1 p.2)
        (set_breakpoints (fun _ => 0) [100, 200, 300]).2 = (fun _ => 0)) :=
  ⟨by decide, patch_round_trip (fun _ => 0) [100, 200, 300] (by decide)⟩

/-- C10: `set_breakpoints` sorts its input itself, so its result on any
request equals its result on the ascending-sorted permutation of that
request, and the response pairs always come out in ascending address
order. -/
theorem set_breakpoints_sorts_input (mem : Nat → Nat) (l l2 : List Nat)
    (hperm : l2.Perm l) (hsorted : List.Sorted (fun x y : Nat => x ≤ y) l2) :
    set_breakpoints mem l = set_breakpoints mem l2 ∧
    List.Sorted (fun x y : Nat => x ≤ y)
      ((set_breakpoints mem l).1.map Prod.fst) := by
  have hkey : List.insertionSort (fun x y : Nat => x ≤ y) l = l2 :=
    List.eq_of_perm_of_sorted ((List.perm_insertionSort _ l).trans hperm.symm)
      (List.sorted_insertionSort _ l) hsorted
  have heq : set_breakpoints mem l = set_breakpoints mem l2 := by
    unfold set_breakpoints
    rw [hkey, List.Sorted.insertionSort_eq hsorted]
  refine ⟨heq, ?_⟩
  rw [heq]
  have hfst : (set_breakpoints mem l2).1.map Prod.fst = l2 := by
    unfold set_breakpoints
    rw [List.Sorted.insertionSort_eq hsorted, foldl_spans_flatten,
      (buildSpans_spec l2 hsorted).1]
    have := patchRun_fst l2 [] mem
    rw [this]
    simp
  rw [hfst]
  exact hsorted

/-- Witness for C10 at the unsorted request `[300, 100]`. -/
theorem set_breakpoints_sorts_input_witness :
    ([100, 300] : List Nat).Perm [300, 100] ∧
    List.Sorted (fun x y : Nat => x ≤ y) [100, 300] ∧
    (set_breakpoints (fun _ => 0) [300, 100] = set_breakpoints (fun _ => 0) [100, 300] ∧
     List.Sorted (fun x y : Nat => x ≤ y)
       ((set_breakpoints (fun _ => 0) [300, 100]).1.map Prod.fst)) :=
  ⟨by decide, by decide,
    set_breakpoints_sorts_input (fun _ => 0) [300, 100] [100, 300] (by decide) (by decide)⟩

/-! ## The agent's service loop -/

theorem respondAll_length (reqs : List (List Nat)) :
    ∀ mem : Nat → Nat, (respondAll mem reqs).length = reqs.length := by
  induction reqs with
  | nil => intro mem; rfl
  | cons r rest ih => intro mem; simp [respondAll, ih]

/-- C4: the agent's service loop answers, in order, exactly the requests
preceding the first empty one — one response per non-empty request — and
exits on the empty request without responding to it. -/
theorem agent_service_loop (mem : Nat → Nat) (reqs : List (List Nat)) :
    send_phdrs_loop mem reqs =
      respondAll mem (reqs.takeWhile (fun r => !r.isEmpty)) ∧
    (send_phdrs_loop mem reqs).length =
      (reqs.takeWhile (fun r => !r.isEmpty)).length := by
  have hmain : ∀ (rs : List (List Nat)) (m : Nat → Nat),
      send_phdrs_loop m rs = respondAll m (rs.takeWhile (fun r => !r.isEmpty)) := by
    intro rs
    induction rs with
    | nil => intro m; rfl
    | cons r rest ih =>
      intro m
      by_cases hr : r.isEmpty
      · simp [send_phdrs_loop, hr, List.takeWhile_cons, respondAll]
      · simp [send_phdrs_loop, hr, List.takeWhile_cons, respondAll, ih]
  refine ⟨hmain reqs mem, ?_⟩
  rw [hmain reqs mem, respondAll_length]

/-! ## Protection handling in `set_breakpoints` -/

/-- The protection-aware patch loop acts on `pairs`/`mem` exactly like the
plain one and never touches `prot` or `calls`. -/
theorem patchAddrProt_proj (addrs : List Nat) :
    ∀ st : PatchState,
      (addrs.foldl patchAddrProt st).pairs =
        (addrs.foldl patchAddr (st.pairs, st.mem)).1 ∧
      (addrs.foldl patchAddrProt st).mem =
        (addrs.foldl patchAddr (st.pairs, st.mem)).2 ∧
      (addrs.foldl patchAddrProt st).prot = st.prot ∧
      (addrs.foldl patchAddrProt st).calls = st.calls := by
  induction addrs with
  | nil => intro st; exact ⟨rfl, rfl, rfl, rfl⟩
  | cons a addrs ih =>
    intro st
    rw [List.foldl_cons, List.foldl_cons]
    exact ih (patchAddrProt st a)

/-- Folding `patchSpan`: the pairs and memory agree with the plain patch
fold, and the `mprotect` trace consists of a make-writable call and a
restore-to-readable+executable call per span, in span order, regardless
of the oracle. -/
theorem spanFold_proj (ok : Nat → Nat → Nat → Bool) (spans : List Span) :
    ∀ st : PatchState,
      (spans.foldl (patchSpan ok) st).pairs =
        (spans.foldl (fun q sp => sp.addrs.foldl patchAddr q) (st.pairs, st.mem)).1 ∧
      (spans.foldl (patchSpan ok) st).mem =
        (spans.foldl (fun q sp => sp.addrs.foldl patchAddr q) (st.pairs, st.mem)).2 ∧
      (spans.foldl (patchSpan ok) st).calls =
        st.calls ++ (spans.map (fun s =>
          [(s.start, s.len, PROT_WRITE),
           (s.start, s.len, PROT_READ ||| PROT_EXEC)])).flatten := by
  induction spans with
  | nil => intro st; exact ⟨rfl, rfl, by simp⟩
  | cons s spans ih =>
    intro st
    rw [List.foldl_cons, List.foldl_cons]
    obtain ⟨ih1, ih2, ih3⟩ := ih (patchSpan ok st s)
    have hproj := patchAddrProt_proj s.addrs (mprotectCall ok st s.start s.len PROT_WRITE)
    have hps : ((patchSpan ok st s).pairs, (patchSpan ok st s).mem) =
        s.addrs.foldl patchAddr (st.pairs, st.mem) :=
      Prod.ext_iff.mpr ⟨hproj.1, hproj.2.1⟩
    have hcalls : (patchSpan ok st s).calls =
        st.calls ++ [(s.start, s.len, PROT_WRITE),
                     (s.start, s.len, PROT_READ ||| PROT_EXEC)] := by
      calc (patchSpan ok st s).calls
          = (s.addrs.foldl patchAddrProt
              (mprotectCall ok st s.start s.len PROT_WRITE)).calls ++
            [(s.start, s.len, PROT_READ ||| PROT_EXEC)] := rfl
        _ = (mprotectCall ok st s.start s.len PROT_WRITE).calls ++
            [(s.start, s.len, PROT_READ ||| PROT_EXEC)] := by rw [hproj.2.2.2]
        _ = (st.calls ++ [(s.start, s.len, PROT_WRITE)]) ++
            [(s.start, s.len, PROT_READ ||| PROT_EXEC)] := rfl
        _ = st.calls ++ [(s.start, s.len, PROT_WRITE),
                         (s.start, s.len, PROT_READ ||| PROT_EXEC)] := by simp
    refine ⟨?_, ?_, ?_⟩
    · rw [ih1, hps]
    · rw [ih2, hps]
    · rw [ih3, hcalls]
      simp

/-- C3 (amended): `set_breakpoints` discards every `mprotect` result — the
patched addresses, returned pairs and final memory are identical for every
protection oracle (in particular when the make-writable call for a span
fails every address of that span is still patched), and the only exit path
issues the restore call to `PROT_READ | PROT_EXEC` for every span. -/
theorem mprotect_results_ignored (ok : Nat → Nat → Nat → Bool)
    (mem prot : Nat → Nat) (l : List Nat) :
    (set_breakpoints_prot ok mem prot l).pairs = (set_breakpoints mem l).1 ∧
    (set_breakpoints_prot ok mem prot l).mem = (set_breakpoints mem l).2 ∧
    (set_breakpoints_prot ok mem prot l).calls =
      ((buildSpans (List.insertionSort (fun x y : Nat => x ≤ y) l)).map (fun s =>
        [(s.start, s.len, PROT_WRITE),
         (s.start, s.len, PROT_READ ||| PROT_EXEC)])).flatten := by
  obtain ⟨h1, h2, h3⟩ :=
    spanFold_proj ok (buildSpans (List.insertionSort (fun x y : Nat => x ≤ y) l))
      { mem := mem, prot := prot, pairs := [], calls := [] }
  exact ⟨h1, h2, by simpa using h3⟩

/-- C3 counterexample: run `set_breakpoints` on the request `[100]` over
all-zero memory and protection, with an oracle under which every `mprotect`
call fails.  The span `[0, 4096)` containing 100 had its protection change
fail, yet address 100 is patched anyway — its pair is returned and its byte
becomes `0xCC` — and the page's protection is left at 0, not restored to
readable+executable.  The call trace shows both `mprotect` calls were
issued and ignored. -/
theorem mprotect_failure_still_patches :
    (set_breakpoints_prot (fun _ _ _ => false) (fun _ => 0) (fun _ => 0) [100]).pairs
      = [(100, 0)] ∧
    (set_breakpoints_prot (fun _ _ _ => false) (fun _ => 0) (fun _ => 0) [100]).mem 100
      = BREAKPOINT ∧
    (set_breakpoints_prot (fun _ _ _ => false) (fun _ => 0) (fun _ => 0) [100]).prot 100
      = 0 ∧
    (set_breakpoints_prot (fun _ _ _ => false) (fun _ => 0) (fun _ => 0) [100]).calls
      = [(0, PAGE_SIZE, PROT_WRITE), (0, PAGE_SIZE, PROT_READ ||| PROT_EXEC)] :=
  ⟨rfl, rfl, rfl, rfl⟩

/-! ## Filter semantics -/

/-- C5: a directory is admitted iff the include set matches it or the
exclude set does not; in particular a directory matching both sets is
included (include wins), and one matching neither is included. -/
theorem filter_semantics (f : Filter) (d : String) :
    (dirAllow f d = true ↔
      (f.dir_include d = true ∨ f.dir_exclude d = false)) ∧
    (f.dir_include d = true → f.dir_exclude d = true → dirAllow f d = true) ∧
    (f.dir_include d = false → f.dir_exclude d = false → dirAllow f d = true) ∧
    (∀ p ∈ allowedDirs f [d], p = (d, dirAllow f d)) := by
  refine ⟨?_, ?_, ?_, ?_⟩
  · cases hI : f.dir_include d <;> cases hE : f.dir_exclude d <;>
      simp [dirAllow, hI, hE]
  · intro hI hE
    simp [dirAllow, hI]
  · intro hI hE
    simp [dirAllow, hI, hE]
  · intro p hp
    simpa [allowedDirs] using hp

/-- Witness for C5 at the spec's scenario: include and exclude both match
`"/home/me/src/vendor/a"`, and the directory is included. -/
theorem filter_semantics_witness :
    (dirAllow { dir_include := fun _ => true, dir_exclude := fun _ => true }
        "/home/me/src/vendor/a" = true ↔
      (((fun _ : String => true) "/home/me/src/vendor/a") = true ∨
       ((fun _ : String => true) "/home/me/src/vendor/a") = false)) ∧
    (((fun _ : String => true) "/home/me/src/vendor/a") = true →
      ((fun _ : String => true) "/home/me/src/vendor/a") = true →
      dirAllow { dir_include := fun _ => true, dir_exclude := fun _ => true }
        "/home/me/src/vendor/a" = true) ∧
    (((fun _ : String => true) "/home/me/src/vendor/a") = false →
      ((fun _ : String => true) "/home/me/src/vendor/a") = false →
      dirAllow { dir_include := fun _ => true, dir_exclude := fun _ => true }
        "/home/me/src/vendor/a" = true) ∧
    (∀ p ∈ allowedDirs { dir_include := fun _ => true, dir_exclude := fun _ => true }
        ["/home/me/src/vendor/a"],
      p = ("/home/me/src/vendor/a",
        dirAllow { dir_include := fun _ => true, dir_exclude := fun _ => true }
          "/home/me/src/vendor/a")) :=
  filter_semantics { dir_include := fun _ => true, dir_exclude := fun _ => true }
    "/home/me/src/vendor/a"

/-! ## Debug-link resolution -/

/-- C6: with a declared debug-link `(name, crc)`, `load_debug` probes
`D/name`, `D/.debug/name`, `/usr/lib/debug/<D-without-root>/name` in that
order and takes the first that opens; the opened file's sections replace
the primary's exactly when its CRC32 matches and it parses, and on CRC
mismatch, parse failure, or no candidate opening, the primary's own
sections are used. -/
theorem debuglink_resolution (openF : List String → Option Nat)
    (mapF : Nat → Option Nat) (crcF : Nat → Nat) (parseF : Nat → Option Nat)
    (objdir : List String) (name : String) (crc : Nat) (primary : Nat) :
    (debugPaths objdir name =
      [objdir ++ [name], objdir ++ [".debug", name],
       ["usr", "lib", "debug"] ++ objdir ++ [name]]) ∧
    (∀ f, openF (objdir ++ [name]) = some f →
      firstOpen openF (debugPaths objdir name) = some f) ∧
    (∀ f, openF (objdir ++ [name]) = none →
      openF (objdir ++ [".debug", name]) = some f →
      firstOpen openF (debugPaths objdir name) = some f) ∧
    (∀ f, openF (objdir ++ [name]) = none →
      openF (objdir ++ [".debug", name]) = none →
      openF (["usr", "lib", "debug"] ++ objdir ++ [name]) = some f →
      firstOpen openF (debugPaths objdir name) = some f) ∧
    (firstOpen openF (debugPaths objdir name) = none →
      load_debug openF mapF crcF parseF objdir name crc primary =
        Except.ok primary) ∧
    (∀ f c obj, firstOpen openF (debugPaths objdir name) = some f →
      mapF f = some c → crcF c = crc → parseF c = some obj →
      load_debug openF mapF crcF parseF objdir name crc primary =
        Except.ok obj) ∧
    (∀ f c, firstOpen openF (debugPaths objdir name) = some f →
      mapF f = some c → crcF c ≠ crc →
      load_debug openF mapF crcF parseF objdir name crc primary =
        Except.ok primary) ∧
    (∀ f c, firstOpen openF (debugPaths objdir name) = some f →
      mapF f = some c → crcF c = crc → parseF c = none →
      load_debug openF mapF crcF parseF objdir name crc primary =
        Except.ok primary) := by
  refine ⟨rfl, ?_, ?_, ?_, ?_, ?_, ?_, ?_⟩
  · intro f h1
    simp [debugPaths, firstOpen, h1]
  · intro f h1 h2
    simp [debugPaths, firstOpen, h1, h2]
  · intro f h1 h2 h3
    simp only [List.append_assoc, List.cons_append, List.nil_append] at h3
    simp [debugPaths, firstOpen, h1, h2, h3]
  · intro h
    simp [load_debug, h]
  · intro f c obj h1 h2 h3 h4
    simp [load_debug, h1, h2, h3, h4]
  · intro f c h1 h2 h3
    simp [load_debug, h1, h2, h3]
  · intro f c h1 h2 h3 h4
    simp [load_debug, h1, h2, h3, h4]

/-- Witness for C6 at the spec's debug-link scenario: the object directory
is `/bin`, only `/usr/lib/debug/bin/ls.debug` opens, its CRC matches, and
it parses. -/
theorem debuglink_resolution_witness :
    (debugPaths ["bin"] "ls.debug" =
      [["bin"] ++ ["ls.debug"], ["bin"] ++ [".debug", "ls.debug"],
       ["usr", "lib", "debug"] ++ ["bin"] ++ ["ls.debug"]]) ∧
    (∀ f, (fun p => if p = ["usr", "lib", "debug", "bin", "ls.debug"]
            then some 1 else none) (["bin"] ++ ["ls.debug"]) = some f →
      firstOpen (fun p => if p = ["usr", "lib", "debug", "bin", "ls.debug"]
            then some 1 else none) (debugPaths ["bin"] "ls.debug") = some f) ∧
    (∀ f, (fun p => if p = ["usr", "lib", "debug", "bin", "ls.debug"]
            then some 1 else none) (["bin"] ++ ["ls.debug"]) = none →
      (fun p => if p = ["usr", "lib", "debug", "bin", "ls.debug"]
            then some 1 else none) (["bin"] ++ [".debug", "ls.debug"]) = some f →
      firstOpen (fun p => if p = ["usr", "lib", "debug", "bin", "ls.debug"]
            then some 1 else none) (debugPaths ["bin"] "ls.debug") = some f) ∧
    (∀ f, (fun p => if p = ["usr", "lib", "debug", "bin", "ls.debug"]
            then some 1 else none) (["bin"] ++ ["ls.debug"]) = none →
      (fun p => if p = ["usr", "lib", "debug", "bin", "ls.debug"]
            then some 1 else none) (["bin"] ++ [".debug", "ls.debug"]) = none →
      (fun p => if p = ["usr", "lib", "debug", "bin", "ls.debug"]
            then some 1 else none) (["usr", "lib", "debug"] ++ ["bin"] ++ ["ls.debug"])
          = some f →
      firstOpen (fun p => if p = ["usr", "lib", "debug", "bin", "ls.debug"]
            then some 1 else none) (debugPaths ["bin"] "ls.debug") = some f) ∧
    (firstOpen (fun p => if p = ["usr", "lib", "debug", "bin", "ls.debug"]
          then some 1 else none) (debugPaths ["bin"] "ls.debug") = none →
      load_debug (fun p => if p = ["usr", "lib", "debug", "bin", "ls.debug"]
            then some 1 else none) some (fun _ => 7) some ["bin"] "ls.debug" 7 0 =
        Except.ok 0) ∧
    (∀ f c obj, firstOpen (fun p => if p = ["usr", "lib", "debug", "bin", "ls.debug"]
          then some 1 else none) (debugPaths ["bin"] "ls.debug") = some f →
      some f = some c → (fun _ : Nat => 7) c = 7 → some c = some obj →
      load_debug (fun p => if p = ["usr", "lib", "debug", "bin", "ls.debug"]
            then some 1 else none) some (fun _ => 7) some ["bin"] "ls.debug" 7 0 =
        Except.ok obj) ∧
    (∀ f c, firstOpen (fun p => if p = ["usr", "lib", "debug", "bin", "ls.debug"]
          then some 1 else none) (debugPaths ["bin"] "ls.debug") = some f →
      some f = some c → (fun _ : Nat => 7) c ≠ 7 →
      load_debug (fun p => if p = ["usr", "lib", "debug", "bin", "ls.debug"]
            then some 1 else none) some (fun _ => 7) some ["bin"] "ls.debug" 7 0 =
        Except.ok 0) ∧
    (∀ f c, firstOpen (fun p => if p = ["usr", "lib", "debug", "bin", "ls.debug"]
          then some 1 else none) (debugPaths ["bin"] "ls.debug") = some f →
      some f = some c → (fun _ : Nat => 7) c = 7 → some c = none →
      load_debug (fun p => if p = ["usr", "lib", "debug", "bin", "ls.debug"]
            then some 1 else none) some (fun _ => 7) some ["bin"] "ls.debug" 7 0 =
        Except.ok 0) :=
  debuglink_resolution
    (fun p => if p = ["usr", "lib", "debug", "bin", "ls.debug"] then some 1 else none)
    some (fun _ => 7) some ["bin"] "ls.debug" 7 0

/-! ## Unit-range clamping -/

/-- The clamping pass makes any well-formed list of ranges disjoint in
order, preserving well-formedness; the first emitted range begins at or
after the running `prev_end`. -/
theorem clampRanges_spec :
    ∀ (l : List (URange × Nat)) (p : Nat),
      (∀ r ∈ l, r.1.rbegin ≤ r.1.rend) →
      (∀ y, (clampRanges p l).head? = some y → p ≤ y.1.rbegin) ∧
      List.Chain' (fun x y => x.1.rend ≤ y.1.rbegin) (clampRanges p l) ∧
      (∀ y ∈ clampRanges p l, y.1.rbegin ≤ y.1.rend) := by
  intro l
  induction l with
  | nil =>
    intro p _
    refine ⟨?_, ?_, ?_⟩ <;> simp [clampRanges]
  | cons ru rest ih =>
    intro p hwf
    obtain ⟨r, u⟩ := ru
    have hru : r.rbegin ≤ r.rend := hwf (r, u) (List.mem_cons_self _ _)
    by_cases hcase : r.rend < p
    · obtain ⟨hh, hc, hw⟩ := ih p (fun x hx => hwf x (List.mem_cons_of_mem _ hx))
      have heq : clampRanges p ((r, u) :: rest) =
          ({ rbegin := if r.rbegin < p then p else r.rbegin, rend := p }, u) ::
            clampRanges p rest := by
        simp [clampRanges, hcase]
      rw [heq]
      refine ⟨?_, ?_, ?_⟩
      · intro y hy
        simp only [List.head?_cons, Option.some.injEq] at hy
        rw [← hy]
        by_cases hb : r.rbegin < p <;> simp [hb] <;> omega
      · rw [List.chain'_cons']
        exact ⟨fun y hy => hh y (by simpa using hy), hc⟩
      · intro y hy
        rcases List.mem_cons.mp hy with hy | hy
        · rw [hy]
          by_cases hb : r.rbegin < p <;> simp [hb] <;> omega
        · exact hw y hy
    · obtain ⟨hh, hc, hw⟩ := ih r.rend (fun x hx => hwf x (List.mem_cons_of_mem _ hx))
      have heq : clampRanges p ((r, u) :: rest) =
          ({ rbegin := if r.rbegin < p then p else r.rbegin, rend := r.rend }, u) ::
            clampRanges r.rend rest := by
        simp [clampRanges, hcase]
      rw [heq]
      refine ⟨?_, ?_, ?_⟩
      · intro y hy
        simp only [List.head?_cons, Option.some.injEq] at hy
        rw [← hy]
        by_cases hb : r.rbegin < p <;> simp [hb] <;> omega
      · rw [List.chain'_cons']
        exact ⟨fun y hy => hh y (by simpa using hy), hc⟩
      · intro y hy
        rcases List.mem_cons.mp hy with hy | hy
        · rw [hy]
          by_cases hb : r.rbegin < p <;> simp [hb] <;> omega
        · exact hw y hy

/-- C7: after `from_dwarf` sorts the unit ranges by `begin` and runs its
forward-clamping pass, consecutive entries satisfy `first.end ≤
second.begin` (the trailing `debug_assert`), the list is pairwise
disjoint, and every clamped range still satisfies `begin ≤ end`, so binary
search by address is well-defined. -/
theorem unit_ranges_disjoint (rs : List (URange × Nat))
    (hwf : ∀ r ∈ rs, r.1.rbegin ≤ r.1.rend) :
    List.Chain' (fun x y => x.1.rend ≤ y.1.rbegin) (fromDwarfRanges rs) ∧
    List.Pairwise (fun x y => x.1.rend ≤ y.1.rbegin) (fromDwarfRanges rs) ∧
    (∀ r ∈ fromDwarfRanges rs, r.1.rbegin ≤ r.1.rend) := by
  have hwf2 : ∀ r ∈ List.insertionSort (fun a b => a.1.rbegin ≤ b.1.rbegin) rs,
      r.1.rbegin ≤ r.1.rend := by
    intro r hr
    exact hwf r ((List.perm_insertionSort _ rs).subset hr)
  obtain ⟨hh, hc, hw⟩ := clampRanges_spec _ 0 hwf2
  exact ⟨hc,
    chain'_pairwise_bounds (fun x : URange × Nat => x.1.rbegin)
      (fun x : URange × Nat => x.1.rend) _ hw hc, hw⟩

/-- Witness for C7 on two overlapping well-formed ranges. -/
theorem unit_ranges_disjoint_witness :
    (∀ r ∈ [((⟨10, 20⟩ : URange), 0), (⟨5, 15⟩, 1)], r.1.rbegin ≤ r.1.rend) ∧
    (List.Chain' (fun x y => x.1.rend ≤ y.1.rbegin)
        (fromDwarfRanges [((⟨10, 20⟩ : URange), 0), (⟨5, 15⟩, 1)]) ∧
     List.Pairwise (fun x y => x.1.rend ≤ y.1.rbegin)
        (fromDwarfRanges [((⟨10, 20⟩ : URange), 0), (⟨5, 15⟩, 1)]) ∧
     (∀ r ∈ fromDwarfRanges [((⟨10, 20⟩ : URange), 0), (⟨5, 15⟩, 1)],
        r.1.rbegin ≤ r.1.rend)) :=
  ⟨by decide, unit_ranges_disjoint [((⟨10, 20⟩ : URange), 0), (⟨5, 15⟩, 1)] (by decide)⟩

/-! ## Controller dedup across re-reports -/

/-- Processing one connection's object list: the parse log stays
duplicate-free and inside the seen-set, the seen-set afterwards is the old
one plus the reported keys, and a key is parsed exactly when it is
reported and was not seen before. -/
theorem reportObjs_spec :
    ∀ (objs : List ObjectInfo) (seen parses : List (Nat × String)),
      parses.Nodup → (∀ k ∈ parses, k ∈ seen) →
      (reportObjs seen parses objs).2.Nodup ∧
      (∀ k ∈ (reportObjs seen parses objs).2, k ∈ (reportObjs seen parses objs).1) ∧
      (∀ k, k ∈ (reportObjs seen parses objs).1 ↔
        (k ∈ seen ∨ k ∈ objs.map objKey)) ∧
      (∀ k, k ∈ (reportObjs seen parses objs).2 ↔
        (k ∈ parses ∨ (k ∈ objs.map objKey ∧ ¬k ∈ seen))) := by
  intro objs
  induction objs with
  | nil =>
    intro seen parses hnd hsub
    refine ⟨hnd, hsub, ?_, ?_⟩ <;> intro k <;> simp [reportObjs]
  | cons obj rest ih =>
    intro seen parses hnd hsub
    by_cases hmem : objKey obj ∈ seen
    · have heq : reportObjs seen parses (obj :: rest) = reportObjs seen parses rest := by
        simp [reportObjs, hmem]
      obtain ⟨h1, h2, h3, h4⟩ := ih seen parses hnd hsub
      rw [heq]
      refine ⟨h1, h2, ?_, ?_⟩
      · intro k
        rw [h3 k]
        simp only [List.map_cons, List.mem_cons]
        constructor
        · tauto
        · rintro (hk | hk | hk)
          · tauto
          · left; rw [hk]; exact hmem
          · tauto
      · intro k
        rw [h4 k]
        simp only [List.map_cons, List.mem_cons]
        constructor
        · tauto
        · rintro (hk | ⟨(hk | hk), hk2⟩)
          · tauto
          · exact absurd (hk ▸ hmem) hk2
          · tauto
    · have heq : reportObjs seen parses (obj :: rest) =
          reportObjs (objKey obj :: seen) (parses ++ [objKey obj]) rest := by
        simp [reportObjs, hmem]
      have hnd2 : (parses ++ [objKey obj]).Nodup := by
        rw [List.nodup_append]
        refine ⟨hnd, List.nodup_singleton _, ?_⟩
        intro a ha hb
        rw [List.mem_singleton] at hb
        exact hmem (hb ▸ hsub a ha)
      have hsub2 : ∀ k ∈ parses ++ [objKey obj], k ∈ objKey obj :: seen := by
        intro k hk
        rcases List.mem_append.mp hk with hk | hk
        · exact List.mem_cons_of_mem _ (hsub k hk)
        · rw [List.mem_singleton] at hk
          rw [hk]
          exact List.mem_cons_self _ _
      obtain ⟨h1, h2, h3, h4⟩ := ih (objKey obj :: seen) (parses ++ [objKey obj]) hnd2 hsub2
      rw [heq]
      refine ⟨h1, h2, ?_, ?_⟩
      · intro k
        rw [h3 k]
        simp only [List.map_cons, List.mem_cons]
        tauto
      · intro k
        have happ : k ∈ parses ++ [objKey obj] ↔ (k ∈ parses ∨ k = objKey obj) := by
          simp
        have hseen : k ∈ objKey obj :: seen ↔ (k = objKey obj ∨ k ∈ seen) :=
          List.mem_cons
        have hmap : k ∈ (obj :: rest).map objKey ↔
            (k = objKey obj ∨ k ∈ rest.map objKey) := by
          simp
        rw [h4 k, happ, hseen, hmap]
        constructor
        · rintro ((hk | hk) | ⟨hk, hk2⟩)
          · exact Or.inl hk
          · exact Or.inr ⟨Or.inl hk, fun hks => hmem (hk ▸ hks)⟩
          · exact Or.inr ⟨Or.inr hk, fun hks => hk2 (Or.inr hks)⟩
        · rintro (hk | ⟨(hk | hk), hk2⟩)
          · exact Or.inl (Or.inl hk)
          · exact Or.inl (Or.inr hk)
          · by_cases hkk : k = objKey obj
            · exact Or.inl (Or.inr hkk)
            · exact Or.inr ⟨hk, fun hks => hks.elim hkk hk2⟩

/-- The accept loop composes the per-connection behaviour; the seen-set and
parse log thread through all connections. -/
theorem acceptLoop_spec :
    ∀ (conns : List (List ObjectInfo)) (seen parses : List (Nat × String)),
      parses.Nodup → (∀ k ∈ parses, k ∈ seen) →
      (acceptLoop seen parses conns).2.Nodup ∧
      (∀ k ∈ (acceptLoop seen parses conns).2, k ∈ (acceptLoop seen parses conns).1) ∧
      (∀ k, k ∈ (acceptLoop seen parses conns).1 ↔
        (k ∈ seen ∨ k ∈ conns.flatten.map objKey)) ∧
      (∀ k, k ∈ (acceptLoop seen parses conns).2 ↔
        (k ∈ parses ∨ (k ∈ conns.flatten.map objKey ∧ ¬k ∈ seen))) := by
  intro conns
  induction conns with
  | nil =>
    intro seen parses hnd hsub
    refine ⟨hnd, hsub, ?_, ?_⟩ <;> intro k <;> simp [acceptLoop]
  | cons c conns ih =>
    intro seen parses hnd hsub
    obtain ⟨r1, r2, r3, r4⟩ := reportObjs_spec c seen parses hnd hsub
    have heq : acceptLoop seen parses (c :: conns) =
        acceptLoop (reportObjs seen parses c).1 (reportObjs seen parses c).2 conns := rfl
    obtain ⟨h1, h2, h3, h4⟩ := ih (reportObjs seen parses c).1 (reportObjs seen parses c).2 r1 r2
    rw [heq]
    refine ⟨h1, h2, ?_, ?_⟩
    · intro k
      rw [h3 k, r3 k]
      simp only [List.flatten_cons, List.map_append, List.mem_append]
      tauto
    · intro k
      rw [h4 k, r4 k, r3 k]
      simp only [List.flatten_cons, List.map_append, List.mem_append]
      tauto

/-- C8: starting from an empty seen-set, across any sequence of incoming
`ObjectInfo` batches (re-reports included) the controller invokes
debug-info parsing at most once per distinct `(pid, path)` key — the parse
log is duplicate-free — and a key is parsed iff some batch reported it. -/
theorem dedup_on_rereport (conns : List (List ObjectInfo)) :
    (acceptLoop [] [] conns).2.Nodup ∧
    (∀ k, k ∈ (acceptLoop [] [] conns).2 ↔ k ∈ conns.flatten.map objKey) := by
  obtain ⟨h1, _, _, h4⟩ := acceptLoop_spec conns [] []
    List.nodup_nil (by intro k hk; cases hk)
  refine ⟨h1, fun k => ?_⟩
  rw [h4 k]
  simp

/-! ## `Process::exec` and the segment map -/

/-- Raw membership in `btreeInsert`: a pair of the result is the inserted
pair or an old pair (possibly with the same key in the unsorted case). -/
theorem btreeInsert_mem_aux :
    ∀ (m : List (Nat × Nat)) (k v a b : Nat),
      (a, b) ∈ btreeInsert m k v →
      ((a = k ∧ b = v) ∨ (a, b) ∈ m) := by
  intro m
  induction m with
  | nil =>
    intro k v a b h
    simp [btreeInsert] at h
    exact Or.inl h
  | cons kv m ih =>
    intro k v a b h
    obtain ⟨k0, v0⟩ := kv
    by_cases h1 : k < k0
    · rw [show btreeInsert ((k0, v0) :: m) k v = (k, v) :: (k0, v0) :: m by
        simp [btreeInsert, h1]] at h
      rcases List.mem_cons.mp h with h | h
      · simp at h
        exact Or.inl h
      · exact Or.inr h
    · by_cases h2 : k = k0
      · rw [show btreeInsert ((k0, v0) :: m) k v = (k, v) :: m by
          simp [btreeInsert, h1, h2]] at h
        rcases List.mem_cons.mp h with h | h
        · simp at h
          exact Or.inl h
        · exact Or.inr (List.mem_cons_of_mem _ h)
      · rw [show btreeInsert ((k0, v0) :: m) k v = (k0, v0) :: btreeInsert m k v by
          simp [btreeInsert, h1, h2]] at h
        rcases List.mem_cons.mp h with h | h
        · simp at h
          exact Or.inr (List.mem_cons.mpr (Or.inl (by simp [h])))
        · rcases ih k v a b h with h | h
          · exact Or.inl h
          · exact Or.inr (List.mem_cons_of_mem _ h)

/-- Insertion via `btreeInsert` preserves strict key-sortedness. -/
theorem btreeInsert_sorted :
    ∀ (m : List (Nat × Nat)) (k v : Nat),
      List.Pairwise (fun x y => x.1 < y.1) m →
      List.Pairwise (fun x y => x.1 < y.1) (btreeInsert m k v) := by
  intro m
  induction m with
  | nil =>
    intro k v _
    simp [btreeInsert]
  | cons kv m ih =>
    intro k v hm
    obtain ⟨k0, v0⟩ := kv
    rw [List.pairwise_cons] at hm
    obtain ⟨hk0, hm2⟩ := hm
    by_cases h1 : k < k0
    · rw [show btreeInsert ((k0, v0) :: m) k v = (k, v) :: (k0, v0) :: m by
        simp [btreeInsert, h1]]
      rw [List.pairwise_cons]
      refine ⟨?_, List.Pairwise.cons hk0 hm2⟩
      intro y hy
      rcases List.mem_cons.mp hy with hy | hy
      · rw [hy]
        exact h1
      · have := hk0 y hy
        simp only
        omega
    · by_cases h2 : k = k0
      · rw [show btreeInsert ((k0, v0) :: m) k v = (k, v) :: m by
          simp [btreeInsert, h1, h2]]
        rw [List.pairwise_cons]
        refine ⟨?_, hm2⟩
        intro y hy
        have := hk0 y hy
        simp only
        omega
      · rw [show btreeInsert ((k0, v0) :: m) k v = (k0, v0) :: btreeInsert m k v by
          simp [btreeInsert, h1, h2]]
        rw [List.pairwise_cons]
        refine ⟨?_, ih k v hm2⟩
        intro y hy
        have hkey : y.1 = k ∨ y.1 ∈ m.map Prod.fst := by
          obtain ⟨a, b⟩ := y
          have hmem := btreeInsert_mem_aux m k v a b hy
          rcases hmem with hmem | hmem
          · left
            rw [hmem.1]
          · right
            exact List.mem_map.mpr ⟨(a, b), hmem, rfl⟩
        rcases hkey with hkey | hkey
        · simp only
          omega
        · obtain ⟨z, hz, hz2⟩ := List.mem_map.mp hkey
          have := hk0 z hz
          simp only
          omega

/-- Membership in `btreeInsert` over a strictly key-sorted map: the new
pair is present, and an old pair survives exactly when its key differs
from the inserted one. -/
theorem btreeInsert_mem (m : List (Nat × Nat)) (k v : Nat)
    (hm : List.Pairwise (fun x y => x.1 < y.1) m) :
    ∀ a b, ((a, b) ∈ btreeInsert m k v ↔
      ((a, b) = (k, v) ∨ ((a, b) ∈ m ∧ a ≠ k))) := by
  induction m with
  | nil =>
    intro a b
    simp [btreeInsert]
  | cons kv m ih =>
    obtain ⟨k0, v0⟩ := kv
    rw [List.pairwise_cons] at hm
    obtain ⟨hk0, hm2⟩ := hm
    intro a b
    by_cases h1 : k < k0
    · rw [show btreeInsert ((k0, v0) :: m) k v = (k, v) :: (k0, v0) :: m by
        simp [btreeInsert, h1]]
      constructor
      · intro h
        rcases List.mem_cons.mp h with h | h
        · exact Or.inl (by simpa using h)
        · refine Or.inr ⟨h, ?_⟩
          rcases List.mem_cons.mp h with h | h
          · have ha : a = k0 := congrArg Prod.fst h
            omega
          · have hgt := hk0 (a, b) h
            simp only at hgt
            omega
      · rintro (h | ⟨h, hak⟩)
        · rw [h]
          exact List.mem_cons_self _ _
        · exact List.mem_cons_of_mem _ h
    · by_cases h2 : k = k0
      · rw [show btreeInsert ((k0, v0) :: m) k v = (k, v) :: m by
          simp [btreeInsert, h1, h2]]
        subst h2
        constructor
        · intro h
          rcases List.mem_cons.mp h with h | h
          · exact Or.inl (by simpa using h)
          · have := hk0 (a, b) h
            simp only at this
            refine Or.inr ⟨List.mem_cons_of_mem _ h, ?_⟩
            omega
        · rintro (h | ⟨h, hak⟩)
          · rw [h]
            exact List.mem_cons_self _ _
          · rcases List.mem_cons.mp h with h | h
            · exact absurd (congrArg Prod.fst h) hak
            · exact List.mem_cons_of_mem _ h
      · rw [show btreeInsert ((k0, v0) :: m) k v = (k0, v0) :: btreeInsert m k v by
          simp [btreeInsert, h1, h2]]
        constructor
        · intro h
          rcases List.mem_cons.mp h with h | h
          · refine Or.inr ⟨List.mem_cons.mpr (Or.inl h), ?_⟩
            intro hak
            rw [show a = k0 from congrArg Prod.fst h] at hak
            omega
          · rcases (ih hm2 a b).mp h with h | h
            · exact Or.inl h
            · exact Or.inr ⟨List.mem_cons_of_mem _ h.1, h.2⟩
        · rintro (h | ⟨h, hak⟩)
          · exact List.mem_cons_of_mem _ ((ih hm2 a b).mpr (Or.inl h))
          · rcases List.mem_cons.mp h with h | h
            · exact List.mem_cons.mpr (Or.inl h)
            · exact List.mem_cons_of_mem _ ((ih hm2 a b).mpr (Or.inr ⟨h, hak⟩))

/-- Folding `btreeInsert` preserves strict key-sortedness. -/
theorem btreeFold_sorted :
    ∀ (l : List (Nat × Nat)) (acc : List (Nat × Nat)),
      List.Pairwise (fun x y => x.1 < y.1) acc →
      List.Pairwise (fun x y => x.1 < y.1)
        (l.foldl (fun m kv => btreeInsert m kv.1 kv.2) acc) := by
  intro l
  induction l with
  | nil => intro acc h; exact h
  | cons kv l ih =>
    intro acc h
    rw [List.foldl_cons]
    exact ih _ (btreeInsert_sorted acc kv.1 kv.2 h)

/-- Collecting entries with distinct keys into the sorted map keeps exactly
those entries. -/
theorem btreeFold_mem :
    ∀ (l acc : List (Nat × Nat)),
      List.Pairwise (fun x y => x.1 < y.1) acc →
      (l.map Prod.fst).Nodup →
      (∀ x ∈ l.map Prod.fst, ¬x ∈ acc.map Prod.fst) →
      ∀ a b, ((a, b) ∈ l.foldl (fun m kv => btreeInsert m kv.1 kv.2) acc ↔
        ((a, b) ∈ acc ∨ (a, b) ∈ l)) := by
  intro l
  induction l with
  | nil =>
    intro acc _ _ _ a b
    simp
  | cons kv l ih =>
    intro acc hsort hnd hdisj a b
    obtain ⟨k, v⟩ := kv
    rw [List.map_cons, List.nodup_cons] at hnd
    obtain ⟨hkl, hnd2⟩ := hnd
    have hkacc : ¬k ∈ acc.map Prod.fst :=
      hdisj k (by simp)
    have hdisj2 : ∀ x ∈ l.map Prod.fst, ¬x ∈ (btreeInsert acc k v).map Prod.fst := by
      intro x hx hx2
      obtain ⟨⟨x1, y1⟩, hy, hxy⟩ := List.mem_map.mp hx2
      rcases btreeInsert_mem_aux acc k v x1 y1 hy with hcase | hcase
      · rw [← hxy] at hx
        simp only at hx
        rw [hcase.1] at hx
        exact hkl hx
      · exact hdisj x (by simp [hx]) (List.mem_map.mpr ⟨(x1, y1), hcase, hxy⟩)
    rw [List.foldl_cons]
    rw [ih (btreeInsert acc k v) (btreeInsert_sorted acc k v hsort) hnd2 hdisj2 a b]
    rw [btreeInsert_mem acc k v hsort a b]
    constructor
    · rintro ((h | ⟨h, _⟩) | h)
      · rw [h]
        exact Or.inr (List.mem_cons_self _ _)
      · exact Or.inl h
      · exact Or.inr (List.mem_cons_of_mem _ h)
    · rintro (h | h)
      · have hak : a ≠ k := by
          intro hak
          refine hkacc ?_
          rw [← hak]
          exact List.mem_map.mpr ⟨(a, b), h, rfl⟩
        exact Or.inl (Or.inr ⟨h, hak⟩)
      · rcases List.mem_cons.mp h with h | h
        · exact Or.inl (Or.inl h)
        · exact Or.inr h

/-- C9 counterexample: `Process::exec` with two segments at the same
address keeps only the last, so the segments map does not contain exactly
the given entries — `(0, 1)` is given but absent from the map. -/
theorem exec_duplicate_segments :
    ((0, 1) ∈ ([(0, 1), (0, 2)] : List (Nat × Nat))) ∧
    ¬((0, 1) ∈ (Process.exec
        { pid := 7, state := ProcessState.Running
          addrspace := { breakpoints := [], segments := [] } }
        [(0, 1), (0, 2)]).addrspace.segments) := by
  decide

/-- C9 (amended): for every `Process` and segment list with distinct
addresses, `exec` replaces the address space with a fresh one whose
breakpoints map is empty and whose segments map holds exactly the given
`(address, length)` entries; `pid` and `state` are unchanged. -/
theorem exec_replaces_addrspace (p : Process) (segs : List (Nat × Nat))
    (hnd : (segs.map Prod.fst).Nodup) :
    (p.exec segs).addrspace.breakpoints = [] ∧
    (∀ a b, ((a, b) ∈ (p.exec segs).addrspace.segments ↔ (a, b) ∈ segs)) ∧
    (p.exec segs).pid = p.pid ∧
    (p.exec segs).state = p.state := by
  refine ⟨rfl, ?_, rfl, rfl⟩
  intro a b
  have h := btreeFold_mem segs [] List.Pairwise.nil hnd
    (by intro x _ hx; simp at hx) a b
  simpa using h

/-- Witness for the amended C9 on a concrete process and two segments. -/
theorem exec_replaces_addrspace_witness :
    (([(4096, 100), (8192, 50)] : List (Nat × Nat)).map Prod.fst).Nodup ∧
    ((Process.exec
        { pid := 7, state := ProcessState.Running
          addrspace :=
            { breakpoints := [(1, { addr := 1, srcpath := ("d", "f"),
                                    line := 2, replaced := none })]
              segments := [(0, 16)] } }
        [(4096, 100), (8192, 50)]).addrspace.breakpoints = [] ∧
     (∀ a b, ((a, b) ∈ (Process.exec
        { pid := 7, state := ProcessState.Running
          addrspace :=
            { breakpoints := [(1, { addr := 1, srcpath := ("d", "f"),
                                    line := 2, replaced := none })]
              segments := [(0, 16)] } }
        [(4096, 100), (8192, 50)]).addrspace.segments ↔
        (a, b) ∈ ([(4096, 100), (8192, 50)] : List (Nat × Nat)))) ∧
     (Process.exec
        { pid := 7, state := ProcessState.Running
          addrspace :=
            { breakpoints := [(1, { addr := 1, srcpath := ("d", "f"),
                                    line := 2, replaced := none })]
              segments := [(0, 16)] } }
        [(4096, 100), (8192, 50)]).pid = 7 ∧
     (Process.exec
        { pid := 7, state := ProcessState.Running
          addrspace :=
            { breakpoints := [(1, { addr := 1, srcpath := ("d", "f"),
                                    line := 2, replaced := none })]
              segments := [(0, 16)] } }
        [(4096, 100), (8192, 50)]).state = ProcessState.Running) :=
  ⟨by decide,
    exec_replaces_addrspace
      { pid := 7, state := ProcessState.Running
        addrspace :=
          { breakpoints := [(1, { addr := 1, srcpath := ("d", "f"),
                                  line := 2, replaced := none })]
            segments := [(0, 16)] } }
      [(4096, 100), (8192, 50)] (by decide)⟩

end Ruskcov
